import Mathlib

/-!
# Verification of the solarlog-enerest client (src/src/index.js)

Shallow embedding of the SolarLogOnline class. The interesting computation
is the aggregation loop of `get_combined_inverter_data`; the rest is request
construction (`login` stores a bearer token, `get_inverters` filters the
component list, the read calls attach the axios default headers).

Modelling choices, each noted at the definition it concerns:
* JavaScript numbers are modelled as exact integers (`ℤ`): every numeric
  value the claims mention is integral, the only arithmetic performed is
  addition, and the claims under study are about aggregation structure, not
  float rounding.
* A JS value occurring in a `dataPoints` array is a number or `null`; reading
  past the end of an array yields `undefined`, and `x += y` on such values
  follows JS coercion (`null` ↦ 0, `undefined` ↦ NaN), so the value type also
  carries `nan` and `undef`.
* The object `data = {}` keyed by strings is modelled as an association list
  in insertion order (JS objects preserve insertion order for string keys);
  the stored values are always arrays, which are truthy in JS, so the
  `!data[index]` test is key-absence.
* HTTP calls are modelled by passing the transport's response (or the
  transport itself, as a function) as an argument; a rejected promise is
  `Except.error`.
-/

set_option autoImplicit false

namespace SolarLog

/-- A JavaScript value as it can appear while the aggregation loop of
`get_combined_inverter_data` runs: a number (modelled exactly as `ℤ`),
`null`, `NaN` (result of adding to `undefined`), or `undefined` (read past
the end of an array / array hole). -/
inductive JSVal where
  | num (n : ℤ)
  | null
  | nan
  | undef
  deriving DecidableEq, Repr

namespace JSVal

/-- JS `ToNumber` coercion as used by `+` on these values: `null` ↦ 0,
numbers to themselves; `undefined` and `NaN` have no integer image. -/
def toNumber? : JSVal → Option ℤ
  | num n => some n
  | null => some 0
  | nan => none
  | undef => none

/-- The JS addition `x + y` restricted to the values above (no strings are
involved: `dataPoints` holds numbers and nulls, and out-of-range reads give
`undefined`). Any operand coercing to NaN makes the result NaN. -/
def jsAdd (x y : JSVal) : JSVal :=
  match x.toNumber?, y.toNumber? with
  | some a, some b => num (a + b)
  | _, _ => nan

/-- A value the portal actually puts into `dataPoints`: number or null. -/
def isNumOrNull : JSVal → Prop
  | num _ => True
  | null => True
  | nan => False
  | undef => False

instance : DecidablePred isNumOrNull := by
  intro v
  cases v <;> simp [isNumOrNull] <;> infer_instance

/-- Reading `a[i]` on a JS array: `undefined` when `i` is out of range. -/
def readIdx (a : List JSVal) (i : Nat) : JSVal :=
  a.getD i undef

/-- Writing `a[i] = v` on a JS array: in range it replaces the element;
past the end it extends the array, the skipped positions becoming holes
(which read back as `undefined`). -/
def writeIdx (a : List JSVal) (i : Nat) (v : JSVal) : List JSVal :=
  if i < a.length then a.set i v
  else a ++ List.replicate (i - a.length) undef ++ [v]

end JSVal

open JSVal

/-- One record of the `crossEpochChannels` response consumed by
`get_combined_inverter_data`: `{name, date, dataPoints}` (value semantics;
see `HItem` below for the heap/aliasing model). -/
structure Item where
  name : String
  date : String
  dataPoints : List JSVal
  deriving DecidableEq, Repr

/-- The grouping key built by the loop: `item.name + "_" + item.date`. -/
def keyOf (it : Item) : String :=
  it.name ++ "_" ++ it.date

/-- Lookup in the insertion-ordered association list modelling the JS
object `data`. -/
def findVal {α : Type} : List (String × α) → String → Option α
  | [], _ => none
  | (k, v) :: rest, key => if k = key then some v else findVal rest key

/-- Replacing the value stored under a key (in place, order preserved);
identity when the key is absent. -/
def updateVal {α : Type} : List (String × α) → String → α → List (String × α)
  | [], _, _ => []
  | (k, v) :: rest, key, w =>
      if k = key then (k, w) :: rest else (k, v) :: updateVal rest key w

/-- The inner loop
`for (const i in item.dataPoints) { if (data[index][i] === null) continue;
data[index][i] += item.dataPoints[i]; }`
on plain (unaliased) arrays: iterate the contributor's indices; skip an
index where the accumulator currently holds `null`; otherwise JS-add the
contributor's value into the accumulator at that index. -/
def stepAdd (acc contrib : List JSVal) : List JSVal :=
  (List.range contrib.length).foldl
    (fun a i =>
      if readIdx a i = JSVal.null then a
      else writeIdx a i (jsAdd (readIdx a i) (readIdx contrib i)))
    acc

/-- One iteration of the outer `for (const item of epoch_res)` loop:
a key not yet present is seeded with the record's `dataPoints` (the JS
`!data[index]` test is key-absence, since the stored arrays are truthy);
otherwise the inner add loop runs on the stored accumulator. -/
def combineStep (data : List (String × List JSVal)) (it : Item) :
    List (String × List JSVal) :=
  match findVal data (keyOf it) with
  | none => data ++ [(keyOf it, it.dataPoints)]
  | some acc => updateVal data (keyOf it) (stepAdd acc it.dataPoints)

/-- The aggregation pass of `get_combined_inverter_data` over the
`crossEpochChannels` response (value semantics). -/
def combineData (items : List Item) : List (String × List JSVal) :=
  items.foldl combineStep []

/-! ## Client state, login and headers -/

/-- A failure of the login request as surfaced by the transport: axios
rejects the promise on a non-2xx status or on a transport-level error. -/
inductive AuthError where
  | httpStatus (code : Nat)
  | transport (msg : String)
  deriving DecidableEq, Repr

/-- A failure of a data-retrieval request, same shape. -/
inductive ApiError where
  | httpStatus (code : Nat)
  | transport (msg : String)
  deriving DecidableEq, Repr

/-- The JSON payload of a 2xx token-exchange response; `access_token` is
`none` when the field is absent (JS reads it as `undefined`). -/
structure TokenResponse where
  access_token : Option String
  deriving DecidableEq, Repr

/-- JS string interpolation of a possibly-undefined value, as in the
template literal `` `Bearer ${this.access_token}` ``. -/
def jsInterp : Option String → String
  | some s => s
  | none => "undefined"

/-- The mutable state of a `SolarLogOnline` instance that the claims
concern: the stored `access_token` and the
`axios.defaults.headers.common['Authorization']` entry. -/
structure ClientState where
  access_token : Option String
  authorization : Option String
  deriving DecidableEq, Repr

/-- Constructor state: no token stored, no Authorization default header
(the constructor only sets the five base headers). -/
def initialState : ClientState :=
  { access_token := none, authorization := none }

/-- `login(client_id, client_secret)`: awaits the token POST (its outcome
is the `resp` argument; axios rejects on non-2xx, which propagates), then
unconditionally stores `res.data.access_token` and sets the Authorization
default header to `` `Bearer ${this.access_token}` ``. Note the source
performs no check that the payload carried a token. -/
def login (resp : Except AuthError TokenResponse) (st : ClientState) :
    Except AuthError ClientState :=
  match resp with
  | .error e => .error e
  | .ok r =>
      .ok { st with
            access_token := r.access_token,
            authorization := some ("Bearer " ++ jsInterp r.access_token) }

/-- The headers set on the axios instance at construction. -/
def baseHeaders : List (String × String) :=
  [("Accept", "*/*"),
   ("Accept-Language", "en-US,en;q=0.7,de-DE;q=0.3"),
   ("Content-Type", "application/x-www-form-urlencoded; charset=UTF-8"),
   ("X-Requested-With", "XMLHttpRequest"),
   ("Priority", "u=0")]

/-- The headers axios attaches to every read (GET) request: the instance
defaults, i.e. the constructor's base headers plus the Authorization
default entry when one has been set. None of the read methods passes
extra headers of its own. -/
def readRequestHeaders (st : ClientState) : List (String × String) :=
  baseHeaders ++
    (match st.authorization with
     | none => []
     | some v => [("Authorization", v)])

/-! ## Components and `get_inverters` -/

/-- A component record as returned by the components endpoint; the client
only ever inspects `type` (`component.type === 'Inverter'`). -/
structure Component where
  id : String
  name : String
  type : String
  crossEpochId : String
  deriving DecidableEq, Repr

/-- `get_inverters(plantId, date)`: awaits `this.components(...)` (outcome
passed as `fetched`; a rejection propagates) and filters the returned
array by `component.type === 'Inverter'`. -/
def get_inverters (fetched : Except ApiError (List Component)) :
    Except ApiError (List Component) :=
  match fetched with
  | .error e => .error e
  | .ok components => .ok (components.filter (fun c => c.type = "Inverter"))

/-! ## `get_combined_inverter_data` -/

/-- The transport behaviour of `crossEpochChannels`, abstracted as a
function of its five arguments
`(plantId, xComponentIds, channelNames, dateFrom, dateTo)`. -/
abbrev CrossEpochFetch : Type :=
  String → List String → List String → String → String →
    Except ApiError (List Item)

/-- `get_combined_inverter_data(plantId, inverters, dateFrom, dateTo)`:
awaits `this.crossEpochChannels(plantId, inverters,
["ProdPdc", "ProdEtotal"], dateFrom, dateTo)` (a rejection propagates
before any aggregation) and runs the aggregation loop on the response. -/
def get_combined_inverter_data (fetch : CrossEpochFetch) (plantId : String)
    (inverters : List String) (dateFrom dateTo : String) :
    Except ApiError (List (String × List JSVal)) :=
  match fetch plantId inverters ["ProdPdc", "ProdEtotal"] dateFrom dateTo with
  | .error e => .error e
  | .ok epoch_res => .ok (combineData epoch_res)

/-! ## Heap model of the aggregation loop

JS arrays are heap objects handled by reference: `data[index] =
item.dataPoints` aliases the record's array, and `data[index][i] += ...`
mutates it in place. To state the frame/aliasing behaviour we re-run the
same loop over an explicit heap: an address is an index into a list of
arrays, each record carries the address of its `dataPoints` array, and the
accumulator object maps keys to addresses. -/

/-- The heap: address `a` holds the array `heap.getD a []`. -/
abbrev Heap : Type := List (List JSVal)

/-- A response record in the heap model: `dp` is the heap address of its
`dataPoints` array. -/
structure HItem where
  name : String
  date : String
  dp : Nat
  deriving DecidableEq, Repr

/-- The key `item.name + "_" + item.date` in the heap model. -/
def keyOfH (it : HItem) : String :=
  it.name ++ "_" ++ it.date

/-- Reading the array at a heap address. -/
def heapArr (h : Heap) (a : Nat) : List JSVal :=
  List.getD h a []

/-- Dereferencing a record against a heap gives the value-model record. -/
def derefItem (h : Heap) (it : HItem) : Item :=
  { name := it.name, date := it.date, dataPoints := heapArr h it.dp }

/-- The inner add loop in the heap model: `data[index][i] += item.dataPoints[i]`
re-reads both arrays from the heap on every iteration, so aliasing between
accumulator and contributor is honoured. The iteration range is the
contributor's index set at loop entry. -/
def addLoopH (h : Heap) (accA contribA : Nat) : Heap :=
  (List.range (heapArr h contribA).length).foldl
    (fun hc i =>
      if readIdx (heapArr hc accA) i = JSVal.null then hc
      else
        List.set hc accA
          (writeIdx (heapArr hc accA) i
            (jsAdd (readIdx (heapArr hc accA) i)
              (readIdx (heapArr hc contribA) i))))
    h

/-- One outer-loop iteration in the heap model: seeding a key stores the
record's array ADDRESS (aliasing, no copy); a later record with the same
key mutates the array at the stored address in place. -/
def combineStepH (st : List (String × Nat) × Heap) (it : HItem) :
    List (String × Nat) × Heap :=
  match findVal st.1 (keyOfH it) with
  | none => (st.1 ++ [(keyOfH it, it.dp)], st.2)
  | some accA => (st.1, addLoopH st.2 accA it.dp)

/-- The aggregation pass of `get_combined_inverter_data` in the heap model:
returns the key→address mapping together with the final heap. -/
def combineDataH (items : List HItem) (h : Heap) :
    List (String × Nat) × Heap :=
  items.foldl combineStepH ([], h)

/-! ## Basic list-access lemmas

Small facts about `List.getD` and `List.set` proved from scratch so the
development does not depend on library lemma names. -/

theorem getD_nil {α : Type} (i : Nat) (d : α) : List.getD [] i d = d := rfl

theorem getD_cons_zero {α : Type} (a : α) (l : List α) (d : α) :
    List.getD (a :: l) 0 d = a := rfl

theorem getD_cons_succ {α : Type} (a : α) (l : List α) (i : Nat) (d : α) :
    List.getD (a :: l) (i + 1) d = List.getD l i d := rfl

theorem getD_of_length_le {α : Type} :
    ∀ (l : List α) (i : Nat) (d : α), l.length ≤ i → List.getD l i d = d
  | [], _, _, _ => rfl
  | _ :: l, i + 1, d, h =>
      getD_of_length_le l i d (Nat.le_of_succ_le_succ h)

theorem getD_set_self {α : Type} :
    ∀ (l : List α) (i : Nat) (v d : α), i < l.length →
      List.getD (l.set i v) i d = v
  | _ :: _, 0, _, _, _ => rfl
  | _ :: l, i + 1, v, d, h =>
      getD_set_self l i v d (Nat.lt_of_succ_lt_succ h)

theorem getD_set_other {α : Type} :
    ∀ (l : List α) (i j : Nat) (v d : α), i ≠ j →
      List.getD (l.set i v) j d = List.getD l j d
  | [], _, _, _, _, _ => rfl
  | _ :: _, 0, 0, _, _, hne => absurd rfl hne
  | _ :: _, 0, _ + 1, _, _, _ => rfl
  | _ :: _, _ + 1, 0, _, _, _ => rfl
  | _ :: l, i + 1, j + 1, v, d, hne =>
      getD_set_other l i j v d (fun h => hne (congrArg Nat.succ h))

theorem set_getD_self {α : Type} :
    ∀ (l : List α) (i : Nat) (d : α), i < l.length →
      l.set i (List.getD l i d) = l
  | _ :: _, 0, _, _ => rfl
  | a :: l, i + 1, d, h => by
      simpa using congrArg (a :: ·) (set_getD_self l i d (Nat.lt_of_succ_lt_succ h))

theorem getD_append_left {α : Type} :
    ∀ (l l' : List α) (i : Nat) (d : α), i < l.length →
      List.getD (l ++ l') i d = List.getD l i d
  | _ :: _, _, 0, _, _ => rfl
  | _ :: l, l', i + 1, d, h =>
      getD_append_left l l' i d (Nat.lt_of_succ_lt_succ h)

theorem getD_append_right {α : Type} :
    ∀ (l l' : List α) (i : Nat) (d : α), l.length ≤ i →
      List.getD (l ++ l') i d = List.getD l' (i - l.length) d
  | [], _, _, _, _ => rfl
  | _ :: l, l', i + 1, d, h => by
      simpa using getD_append_right l l' i d (Nat.le_of_succ_le_succ h)

theorem getD_replicate {α : Type} :
    ∀ (n : Nat) (x : α) (i : Nat) (d : α), i < n →
      List.getD (List.replicate n x) i d = x
  | _ + 1, _, 0, _, _ => rfl
  | n + 1, x, i + 1, d, h =>
      getD_replicate n x i d (Nat.lt_of_succ_lt_succ h)

theorem set_length {α : Type} (l : List α) (i : Nat) (v : α) :
    (l.set i v).length = l.length :=
  List.length_set l i v

/-! ## Lemmas about `readIdx`, `writeIdx` and `jsAdd` -/

namespace JSVal

/-- Writing at `j` changes exactly position `j` as seen through `readIdx`;
every other position reads as before (holes created by an out-of-range
write read as `undefined`, which is what those positions read before). -/
theorem readIdx_writeIdx (a : List JSVal) (j : Nat) (v : JSVal) (i : Nat) :
    readIdx (writeIdx a j v) i = if i = j then v else readIdx a i := by
  unfold readIdx writeIdx
  by_cases hj : j < a.length
  · simp only [if_pos hj]
    by_cases hij : i = j
    · subst hij
      rw [if_pos rfl, getD_set_self a i v undef hj]
    · rw [if_neg hij, getD_set_other a j i v undef (fun h => hij h.symm)]
  · simp only [if_neg hj]
    push_neg at hj
    have hlen : (a ++ List.replicate (j - a.length) JSVal.undef).length = j := by
      simp only [List.length_append, List.length_replicate]
      omega
    by_cases hij : i = j
    · subst hij
      rw [if_pos rfl, getD_append_right _ [v] i undef (Nat.le_of_eq hlen),
        hlen, Nat.sub_self]
      rfl
    · rw [if_neg hij]
      rcases Nat.lt_or_ge i a.length with hi | hi
      · rw [getD_append_left _ [v] i undef (by omega),
          getD_append_left a _ i undef hi]
      · rw [getD_of_length_le a i undef hi]
        rcases Nat.lt_or_ge i j with hij2 | hij2
        · rw [getD_append_left _ [v] i undef (by omega),
            getD_append_right a _ i undef hi,
            getD_replicate _ undef _ undef (by omega)]
        · rw [getD_of_length_le _ i undef
            (by simp only [List.length_append, List.length_replicate,
                  List.length_singleton]; omega)]

/-- The length after a write: unchanged in range, `j + 1` past the end. -/
theorem writeIdx_length (a : List JSVal) (j : Nat) (v : JSVal) :
    (writeIdx a j v).length = max a.length (j + 1) := by
  unfold writeIdx
  by_cases hj : j < a.length
  · rw [if_pos hj, set_length]
    omega
  · rw [if_neg hj]
    simp [List.length_replicate]
    omega

/-- Adding a number-or-null to a number gives the number sum under JS
coercion (`null` counts as 0). -/
theorem jsAdd_num (a : ℤ) (y : JSVal) (hy : isNumOrNull y) :
    jsAdd (num a) y = num (a + (y.toNumber?).getD 0) := by
  cases y <;> simp_all [jsAdd, toNumber?, isNumOrNull]

end JSVal

/-! ## Characterisation of the inner add loop -/

/-- The inner add loop cut off after the first `n` indices; `stepAdd` is
`stepAddN` at `n = contrib.length`. -/
def stepAddN (contrib : List JSVal) (n : Nat) (acc : List JSVal) :
    List JSVal :=
  (List.range n).foldl
    (fun a i =>
      if readIdx a i = JSVal.null then a
      else writeIdx a i (jsAdd (readIdx a i) (readIdx contrib i)))
    acc

theorem stepAdd_eq_stepAddN (acc contrib : List JSVal) :
    stepAdd acc contrib = stepAddN contrib contrib.length acc := rfl

theorem stepAddN_zero (contrib acc : List JSVal) :
    stepAddN contrib 0 acc = acc := rfl

theorem stepAddN_succ (contrib : List JSVal) (n : Nat) (acc : List JSVal) :
    stepAddN contrib (n + 1) acc =
      (if readIdx (stepAddN contrib n acc) n = JSVal.null
       then stepAddN contrib n acc
       else writeIdx (stepAddN contrib n acc) n
         (jsAdd (readIdx (stepAddN contrib n acc) n) (readIdx contrib n))) := by
  unfold stepAddN
  rw [List.range_succ, List.foldl_append]
  rfl

/-- What the inner loop leaves at each position: position `i` is touched
exactly when `i` is in the iteration range and the accumulator did not hold
`null` there, in which case the contributor's value is JS-added once;
otherwise the accumulator's value is untouched. -/
theorem readIdx_stepAddN (contrib : List JSVal) (n : Nat) (acc : List JSVal)
    (i : Nat) :
    readIdx (stepAddN contrib n acc) i =
      if i < n ∧ readIdx acc i ≠ JSVal.null
      then jsAdd (readIdx acc i) (readIdx contrib i)
      else readIdx acc i := by
  induction n with
  | zero => simp [stepAddN_zero]
  | succ n ih =>
    rcases eq_or_ne i n with rfl | hne
    · have hcur : readIdx (stepAddN contrib i acc) i = readIdx acc i := by
        rw [ih]
        simp
      rw [stepAddN_succ]
      simp only [hcur]
      by_cases hnull : readIdx acc i = JSVal.null
      · rw [if_pos hnull, hcur]
        simp [hnull]
      · rw [if_neg hnull, readIdx_writeIdx]
        simp [hnull, Nat.lt_succ_self]
    · rw [stepAddN_succ]
      have hiff : (i < n ∧ readIdx acc i ≠ JSVal.null) ↔
          (i < n + 1 ∧ readIdx acc i ≠ JSVal.null) := by
        constructor <;> rintro ⟨h1, h2⟩ <;> exact ⟨by omega, h2⟩
      by_cases hnil : readIdx (stepAddN contrib n acc) n = JSVal.null
      · rw [if_pos hnil, ih]
        simp only [hiff]
      · rw [if_neg hnil, readIdx_writeIdx, if_neg hne, ih]
        simp only [hiff]

/-- The length the inner loop leaves: the accumulator grows exactly up to
the iteration range when that range is longer (the JS write past the end
extends the array). -/
theorem stepAddN_length (contrib : List JSVal) (n : Nat) (acc : List JSVal) :
    (stepAddN contrib n acc).length = max acc.length n := by
  induction n with
  | zero => simp [stepAddN_zero]
  | succ n ih =>
    rw [stepAddN_succ]
    by_cases hnil : readIdx (stepAddN contrib n acc) n = JSVal.null
    · rw [if_pos hnil, ih]
      have hlt : n < (stepAddN contrib n acc).length := by
        by_contra hge
        push_neg at hge
        rw [readIdx, getD_of_length_le _ n _ hge] at hnil
        exact JSVal.noConfusion hnil
      rw [ih] at hlt
      omega
    · rw [if_neg hnil, writeIdx_length, ih]
      omega

theorem stepAdd_length (acc contrib : List JSVal) :
    (stepAdd acc contrib).length = max acc.length contrib.length := by
  rw [stepAdd_eq_stepAddN, stepAddN_length]

theorem readIdx_stepAdd (acc contrib : List JSVal) (i : Nat) :
    readIdx (stepAdd acc contrib) i =
      if i < contrib.length ∧ readIdx acc i ≠ JSVal.null
      then jsAdd (readIdx acc i) (readIdx contrib i)
      else readIdx acc i := by
  rw [stepAdd_eq_stepAddN, readIdx_stepAddN]

/-- Nulls in the accumulator are sticky through one add pass: a position
holding `null` is skipped and stays `null` whatever the contributor holds
there. -/
theorem stepAdd_preserves_null (acc contrib : List JSVal) (i : Nat)
    (h : readIdx acc i = JSVal.null) :
    readIdx (stepAdd acc contrib) i = JSVal.null := by
  rw [readIdx_stepAdd]
  simp [h]

/-! ## Association-list lemmas -/

theorem findVal_nil {α : Type} (k : String) :
    findVal ([] : List (String × α)) k = none := rfl

theorem findVal_singleton {α : Type} (q : String) (v : α) (k : String) :
    findVal [(q, v)] k = if q = k then some v else none := rfl

theorem findVal_cons {α : Type} (q : String) (v : α) (rest : List (String × α))
    (k : String) :
    findVal ((q, v) :: rest) k = if q = k then some v else findVal rest k := rfl

theorem updateVal_cons {α : Type} (q : String) (v : α)
    (rest : List (String × α)) (key : String) (w : α) :
    updateVal ((q, v) :: rest) key w =
      if q = key then (q, w) :: rest else (q, v) :: updateVal rest key w := rfl

theorem findVal_append_some {α : Type} {l : List (String × α)}
    (l' : List (String × α)) {k : String} {v : α} (h : findVal l k = some v) :
    findVal (l ++ l') k = some v := by
  induction l with
  | nil => exact absurd h (by simp [findVal_nil])
  | cons p rest ih =>
    obtain ⟨q, w⟩ := p
    rw [findVal_cons] at h
    rw [List.cons_append, findVal_cons]
    by_cases hp : q = k
    · simpa [hp] using h
    · rw [if_neg hp] at h ⊢
      exact ih h

theorem findVal_append_none {α : Type} {l : List (String × α)}
    (l' : List (String × α)) {k : String} (h : findVal l k = none) :
    findVal (l ++ l') k = findVal l' k := by
  induction l with
  | nil => rfl
  | cons p rest ih =>
    obtain ⟨q, w⟩ := p
    rw [findVal_cons] at h
    rw [List.cons_append, findVal_cons]
    by_cases hp : q = k
    · simp [hp] at h
    · rw [if_neg hp] at h ⊢
      exact ih h

theorem findVal_updateVal_self {α : Type} {l : List (String × α)}
    {key : String} {v : α} (w : α) (h : findVal l key = some v) :
    findVal (updateVal l key w) key = some w := by
  induction l with
  | nil => exact absurd h (by simp [findVal_nil])
  | cons p rest ih =>
    obtain ⟨q, u⟩ := p
    rw [findVal_cons] at h
    rw [updateVal_cons]
    by_cases hp : q = key
    · rw [if_pos hp, findVal_cons, if_pos hp]
    · rw [if_neg hp] at h
      rw [if_neg hp, findVal_cons, if_neg hp]
      exact ih h

theorem findVal_updateVal_other {α : Type} (l : List (String × α))
    (key : String) (w : α) (k : String) (h : k ≠ key) :
    findVal (updateVal l key w) k = findVal l k := by
  induction l with
  | nil => rfl
  | cons p rest ih =>
    obtain ⟨q, u⟩ := p
    rw [updateVal_cons]
    by_cases hp : q = key
    · have hqk : ¬ q = k := fun hk => h (hk ▸ hp)
      rw [if_pos hp, findVal_cons, findVal_cons, if_neg hqk, if_neg hqk]
    · rw [if_neg hp, findVal_cons, findVal_cons]
      by_cases hqk : q = k
      · rw [if_pos hqk, if_pos hqk]
      · rw [if_neg hqk, if_neg hqk]
        exact ih

/-! ## Per-key characterisation of the aggregation pass -/

/-- JS numeric coercion of a number-or-null data point: `null` counts 0. -/
def coerceZ (v : JSVal) : ℤ :=
  (v.toNumber?).getD 0

theorem coerceZ_num (a : ℤ) : coerceZ (JSVal.num a) = a := rfl

theorem coerceZ_null : coerceZ JSVal.null = 0 := rfl

/-- The effect of one input record on the accumulator stored under a fixed
key `k`: records with another key leave it alone; the first record with key
`k` seeds it; later ones run the add loop. -/
def aggOne (k : String) (cur : Option (List JSVal)) (it : Item) :
    Option (List JSVal) :=
  if keyOf it = k then
    match cur with
    | none => some it.dataPoints
    | some acc => some (stepAdd acc it.dataPoints)
  else cur

/-- Folding `aggOne` over the input: the projection of the whole
aggregation onto the single key `k`. -/
def aggKey (items : List Item) (k : String) (cur : Option (List JSVal)) :
    Option (List JSVal) :=
  items.foldl (aggOne k) cur

/-- One add pass per subsequent record, starting from the seed array. -/
def aggFold (dp0 : List JSVal) (rs : List Item) : List JSVal :=
  rs.foldl (fun acc r => stepAdd acc r.dataPoints) dp0

theorem aggKey_nil (k : String) (cur : Option (List JSVal)) :
    aggKey [] k cur = cur := rfl

theorem aggKey_cons (it : Item) (rest : List Item) (k : String)
    (cur : Option (List JSVal)) :
    aggKey (it :: rest) k cur = aggKey rest k (aggOne k cur it) := rfl

theorem aggFold_nil (dp0 : List JSVal) : aggFold dp0 [] = dp0 := rfl

theorem aggFold_cons (dp0 : List JSVal) (r : Item) (rest : List Item) :
    aggFold dp0 (r :: rest) = aggFold (stepAdd dp0 r.dataPoints) rest := rfl

theorem aggOne_ne {k : String} {it : Item} (h : keyOf it ≠ k)
    (cur : Option (List JSVal)) : aggOne k cur it = cur := by
  simp [aggOne, h]

/-- What one outer-loop iteration does to the entry under `k`. -/
theorem findVal_combineStep (data : List (String × List JSVal)) (it : Item)
    (k : String) :
    findVal (combineStep data it) k = aggOne k (findVal data k) it := by
  unfold combineStep
  rcases hk : findVal data (keyOf it) with _ | acc
  · by_cases hkey : keyOf it = k
    · subst hkey
      rw [findVal_append_none _ hk, findVal_singleton, if_pos rfl, hk]
      simp [aggOne]
    · have hfk : findVal (data ++ [(keyOf it, it.dataPoints)]) k
          = findVal data k := by
        rcases hdk : findVal data k with _ | v
        · rw [findVal_append_none _ hdk, findVal_singleton, if_neg hkey]
        · exact findVal_append_some _ hdk
      rw [hfk, aggOne_ne hkey]
  · by_cases hkey : keyOf it = k
    · subst hkey
      rw [findVal_updateVal_self _ hk, hk]
      simp [aggOne]
    · rw [findVal_updateVal_other _ _ _ _ (fun h => hkey h.symm),
        aggOne_ne hkey]

/-- The entry under `k` after the whole outer loop is the `aggOne` fold of
the input onto the entry before it. -/
theorem findVal_foldl_combineStep (items : List Item)
    (data : List (String × List JSVal)) (k : String) :
    findVal (items.foldl combineStep data) k = aggKey items k (findVal data k) := by
  induction items generalizing data with
  | nil => rfl
  | cons it rest ih =>
    rw [List.foldl_cons, ih, aggKey_cons, findVal_combineStep]

/-- Records with other keys do not touch the entry under `k`. -/
theorem aggKey_filter (items : List Item) (k : String)
    (cur : Option (List JSVal)) :
    aggKey items k cur = aggKey (items.filter fun j => keyOf j = k) k cur := by
  induction items generalizing cur with
  | nil => rfl
  | cons it rest ih =>
    by_cases h : keyOf it = k
    · rw [aggKey_cons, ih, List.filter_cons_of_pos (by simpa using h),
        aggKey_cons]
    · rw [aggKey_cons, aggOne_ne h, ih, List.filter_cons_of_neg (by simpa using h)]

theorem aggKey_all_some (rs : List Item) (k : String) (acc : List JSVal)
    (h : ∀ r ∈ rs, keyOf r = k) :
    aggKey rs k (some acc) = some (aggFold acc rs) := by
  induction rs generalizing acc with
  | nil => rfl
  | cons r rest ih =>
    rw [aggKey_cons, aggFold_cons]
    have hr : keyOf r = k := h r (List.mem_cons_self r rest)
    have : aggOne k (some acc) r = some (stepAdd acc r.dataPoints) := by
      simp [aggOne, hr]
    rw [this]
    exact ih _ (fun r' hr' => h r' (List.mem_cons_of_mem _ hr'))

/-- The per-key content of the final accumulator object: the entry under a
key is the seed array of the first record with that key, put through one
add pass per later record with that key; keys with no record are absent. -/
theorem findVal_combineData (items : List Item) (k : String) :
    findVal (combineData items) k =
      match items.filter (fun j => keyOf j = k) with
      | [] => none
      | r0 :: rs => some (aggFold r0.dataPoints rs) := by
  unfold combineData
  rw [findVal_foldl_combineStep, findVal_nil, aggKey_filter]
  rcases hf : items.filter (fun j => keyOf j = k) with _ | ⟨r0, rs⟩
  · rfl
  · have hmem : ∀ r ∈ r0 :: rs, keyOf r = k := by
      intro r hr
      have : r ∈ items.filter (fun j => keyOf j = k) := hf ▸ hr
      simpa using List.of_mem_filter this
    rw [aggKey_cons]
    have : aggOne k none r0 = some r0.dataPoints := by
      simp [aggOne, hmem r0 (List.mem_cons_self r0 rs)]
    rw [this]
    exact aggKey_all_some _ _ _ (fun r hr => hmem r (List.mem_cons_of_mem _ hr))

/-! ## Element-wise values under the equal-length precondition -/

theorem isNumOrNull_cases {v : JSVal} (h : isNumOrNull v) :
    v = JSVal.null ∨ ∃ a, v = JSVal.num a := by
  cases v <;> simp_all [isNumOrNull]

theorem readIdx_eq_getElem (l : List JSVal) (i : Nat) (h : i < l.length) :
    readIdx l i = l[i] := by
  rw [readIdx, List.getD_eq_getElem?_getD, List.getElem?_eq_getElem h]
  rfl

theorem readIdx_mem (l : List JSVal) (i : Nat) (h : i < l.length) :
    readIdx l i ∈ l := by
  rw [readIdx_eq_getElem l i h]
  exact List.getElem_mem h

theorem forall_mem_of_forall_readIdx {P : JSVal → Prop} {l : List JSVal}
    (h : ∀ i, i < l.length → P (readIdx l i)) : ∀ v ∈ l, P v := by
  intro v hv
  obtain ⟨i, hi, rfl⟩ := List.mem_iff_getElem.mp hv
  rw [← readIdx_eq_getElem l i hi]
  exact h i hi

theorem forall_readIdx_of_forall_mem {P : JSVal → Prop} {l : List JSVal}
    (h : ∀ v ∈ l, P v) : ∀ i, i < l.length → P (readIdx l i) :=
  fun i hi => h _ (readIdx_mem l i hi)

/-- One add pass on equal-length number-or-null arrays: length is kept and
position `i` becomes `null` if the accumulator held `null` there (the skip),
else the number sum with the contributor's `null` counting 0. -/
theorem stepAdd_spec {L : Nat} {acc contrib : List JSVal}
    (hacc : acc.length = L) (hcon : contrib.length = L)
    (hnacc : ∀ i, i < L → isNumOrNull (readIdx acc i))
    (hncon : ∀ i, i < L → isNumOrNull (readIdx contrib i)) :
    (stepAdd acc contrib).length = L ∧
    ∀ i, i < L →
      readIdx (stepAdd acc contrib) i =
        (if readIdx acc i = JSVal.null then JSVal.null
         else JSVal.num (coerceZ (readIdx acc i) + coerceZ (readIdx contrib i))) := by
  constructor
  · rw [stepAdd_length, hacc, hcon]
    omega
  · intro i hi
    rw [readIdx_stepAdd]
    by_cases h0 : readIdx acc i = JSVal.null
    · simp [h0]
    · rcases isNumOrNull_cases (hnacc i hi) with h | ⟨a, ha⟩
      · exact absurd h h0
      · rw [if_pos ⟨by omega, h0⟩, if_neg h0, ha,
          jsAdd_num a _ (hncon i hi), coerceZ_num]
        rfl

/-- The full sequence of add passes on equal-length number-or-null arrays:
position `i` of the result is `null` exactly when the seed array held
`null` there; otherwise it is the number `seed + Σ contributors`, each
contributor's `null` counting 0 (not keeping the position null). -/
theorem aggFold_spec {L : Nat} (rs : List Item) (dp0 : List JSVal)
    (hdp0 : dp0.length = L)
    (hlen : ∀ r ∈ rs, r.dataPoints.length = L)
    (hnn0 : ∀ i, i < L → isNumOrNull (readIdx dp0 i))
    (hnn : ∀ r ∈ rs, ∀ i, i < L → isNumOrNull (readIdx r.dataPoints i)) :
    (aggFold dp0 rs).length = L ∧
    ∀ i, i < L →
      readIdx (aggFold dp0 rs) i =
        (if readIdx dp0 i = JSVal.null then JSVal.null
         else JSVal.num (coerceZ (readIdx dp0 i) +
           (rs.map fun r => coerceZ (readIdx r.dataPoints i)).sum)) := by
  induction rs generalizing dp0 with
  | nil =>
    refine ⟨hdp0, fun i hi => ?_⟩
    rw [aggFold_nil]
    rcases isNumOrNull_cases (hnn0 i hi) with h | ⟨a, ha⟩
    · simp [h]
    · simp [ha, coerceZ_num]
  | cons r rest ih =>
    have hrlen : r.dataPoints.length = L := hlen r (List.mem_cons_self r rest)
    have hrnn : ∀ i, i < L → isNumOrNull (readIdx r.dataPoints i) :=
      hnn r (List.mem_cons_self r rest)
    obtain ⟨hslen, hsval⟩ := stepAdd_spec hdp0 hrlen hnn0 hrnn
    have hsnn : ∀ i, i < L → isNumOrNull (readIdx (stepAdd dp0 r.dataPoints) i) := by
      intro i hi
      rw [hsval i hi]
      by_cases h0 : readIdx dp0 i = JSVal.null <;> simp [h0, isNumOrNull]
    obtain ⟨ihlen, ihval⟩ := ih (stepAdd dp0 r.dataPoints) hslen
      (fun r' hr' => hlen r' (List.mem_cons_of_mem _ hr'))
      hsnn
      (fun r' hr' => hnn r' (List.mem_cons_of_mem _ hr'))
    refine ⟨by rw [aggFold_cons]; exact ihlen, fun i hi => ?_⟩
    rw [aggFold_cons, ihval i hi, hsval i hi]
    by_cases h0 : readIdx dp0 i = JSVal.null
    · simp [h0]
    · rcases isNumOrNull_cases (hnn0 i hi) with h | ⟨a, ha⟩
      · exact absurd h h0
      · simp only [if_neg h0]
        rw [if_neg (by simp)]
        rw [List.map_cons, List.sum_cons, coerceZ_num, ha, coerceZ_num,
          add_assoc]

/-! ## Heap-model lemmas -/

theorem heapArr_set_self (h : Heap) (a : Nat) (arr : List JSVal)
    (ha : a < h.length) :
    heapArr (List.set h a arr) a = arr :=
  getD_set_self h a arr [] ha

theorem heapArr_set_other (h : Heap) (a b : Nat) (arr : List JSVal)
    (hne : a ≠ b) :
    heapArr (List.set h a arr) b = heapArr h b :=
  getD_set_other h a b arr [] hne

/-- With distinct accumulator and contributor addresses, the in-place inner
loop cut at `n` equals overwriting the accumulator address with the pure
`stepAddN` of the two arrays read before the loop. -/
theorem addLoopHN_eq (accA contribA : Nat) (h : Heap)
    (hne : accA ≠ contribA) (ha : accA < h.length) :
    ∀ n : Nat,
      (List.range n).foldl
        (fun hc i =>
          if readIdx (heapArr hc accA) i = JSVal.null then hc
          else
            List.set hc accA
              (writeIdx (heapArr hc accA) i
                (jsAdd (readIdx (heapArr hc accA) i)
                  (readIdx (heapArr hc contribA) i))))
        h
      = List.set h accA (stepAddN (heapArr h contribA) n (heapArr h accA)) := by
  intro n
  induction n with
  | zero =>
    rw [List.range_zero, List.foldl_nil, stepAddN_zero]
    exact (set_getD_self h accA [] ha).symm
  | succ n ih =>
    rw [List.range_succ, List.foldl_append, ih, List.foldl_cons, List.foldl_nil]
    have hacc :
        heapArr (List.set h accA (stepAddN (heapArr h contribA) n (heapArr h accA))) accA
          = stepAddN (heapArr h contribA) n (heapArr h accA) :=
      heapArr_set_self _ _ _ ha
    have hcon :
        heapArr (List.set h accA (stepAddN (heapArr h contribA) n (heapArr h accA))) contribA
          = heapArr h contribA :=
      heapArr_set_other _ _ _ _ hne
    rw [hacc, hcon, stepAddN_succ]
    by_cases hnil :
        readIdx (stepAddN (heapArr h contribA) n (heapArr h accA)) n = JSVal.null
    · rw [if_pos hnil, if_pos hnil]
    · rw [if_neg hnil, if_neg hnil, List.set_set]

/-- `addLoopH` with distinct addresses behaves like the pure `stepAdd` on
the addressed arrays, written back at the accumulator's address. -/
theorem addLoopH_eq (h : Heap) (accA contribA : Nat)
    (hne : accA ≠ contribA) (ha : accA < h.length) :
    addLoopH h accA contribA
      = List.set h accA (stepAdd (heapArr h accA) (heapArr h contribA)) := by
  rw [stepAdd_eq_stepAddN]
  exact addLoopHN_eq accA contribA h hne ha (heapArr h contribA).length

theorem findVal_append_single {α : Type} {data : List (String × α)}
    {q : String} {v : α} {k : String} {a : α}
    (h : findVal (data ++ [(q, v)]) k = some a) :
    findVal data k = some a ∨ (findVal data k = none ∧ q = k ∧ v = a) := by
  rcases hd : findVal data k with _ | w
  · right
    rw [findVal_append_none _ hd, findVal_singleton] at h
    by_cases hq : q = k
    · rw [if_pos hq] at h
      exact ⟨rfl, hq, Option.some.inj h⟩
    · rw [if_neg hq] at h
      exact absurd h (by simp)
  · left
    rw [findVal_append_some _ hd] at h
    exact h

theorem findVal_append_single_none {α : Type} {data : List (String × α)}
    {q : String} {v : α} {k : String}
    (h : findVal (data ++ [(q, v)]) k = none) :
    findVal data k = none ∧ q ≠ k := by
  rcases hd : findVal data k with _ | w
  · rw [findVal_append_none _ hd, findVal_singleton] at h
    by_cases hq : q = k
    · rw [if_pos hq] at h
      exact absurd h (by simp)
    · exact ⟨rfl, hq⟩
  · rw [findVal_append_some _ hd] at h
    exact absurd h (by simp)

/-- The key→address mapping built by the heap-model loop: independent of
the heap contents, it stores under each key the `dataPoints` ADDRESS of
the first record seen with that key. -/
theorem findVal_combineStepH_foldl (items : List HItem) :
    ∀ (data : List (String × Nat)) (h : Heap) (k : String),
      findVal ((items.foldl combineStepH (data, h)).1) k =
        (match findVal data k with
         | some a => some a
         | none => (items.find? fun j => keyOfH j = k).map fun j => j.dp) := by
  induction items with
  | nil =>
    intro data h k
    rcases hd : findVal data k with _ | a <;> simp [hd]
  | cons it rest ih =>
    intro data h k
    rw [List.foldl_cons]
    rcases hk : findVal data (keyOfH it) with _ | accA
    · have hstep : combineStepH (data, h) it = (data ++ [(keyOfH it, it.dp)], h) := by
        simp [combineStepH, hk]
      rw [hstep, ih]
      by_cases hkey : keyOfH it = k
      · subst hkey
        rw [findVal_append_none _ hk, findVal_singleton, if_pos rfl, hk,
          List.find?_cons_of_pos _ (by simp)]
        rfl
      · have hfk : findVal (data ++ [(keyOfH it, it.dp)]) k = findVal data k := by
          rcases hdk : findVal data k with _ | v
          · rw [findVal_append_none _ hdk, findVal_singleton, if_neg hkey]
          · exact findVal_append_some _ hdk
        rw [hfk, List.find?_cons_of_neg _ (by simpa using hkey)]
    · have hstep : combineStepH (data, h) it = (data, addLoopH h accA it.dp) := by
        simp [combineStepH, hk]
      rw [hstep, ih]
      by_cases hkey : keyOfH it = k
      · subst hkey
        rw [hk]
      · rcases hdk : findVal data k with _ | v
        · rw [List.find?_cons_of_neg _ (by simpa using hkey)]
        · rfl

/-- Correspondence between the heap-model state and the value-model
accumulator, relative to the initial heap `h0`: heap length is preserved;
every stored address is valid and its array equals the value-model entry
under the same key; absent keys agree; heap cells not stored under any key
still hold their initial arrays; distinct keys store distinct addresses. -/
def SimInv (h0 : Heap) (data : List (String × Nat)) (h : Heap)
    (dataV : List (String × List JSVal)) : Prop :=
  h.length = h0.length ∧
  (∀ k a, findVal data k = some a →
    a < h0.length ∧ findVal dataV k = some (heapArr h a)) ∧
  (∀ k, findVal data k = none → findVal dataV k = none) ∧
  (∀ b, b < h0.length → (∀ k, findVal data k ≠ some b) →
    heapArr h b = heapArr h0 b) ∧
  (∀ k1 k2 a, findVal data k1 = some a → findVal data k2 = some a → k1 = k2)

theorem simInv_init (h0 : Heap) : SimInv h0 [] h0 [] :=
  ⟨rfl, fun k a h => by simp [findVal_nil] at h,
   fun k _ => rfl, fun b _ _ => rfl,
   fun k1 k2 a h1 => by simp [findVal_nil] at h1⟩

/-- The heap-model outer loop simulates the value-model one, provided the
records' array addresses are valid and pairwise distinct (the shape of a
freshly parsed JSON response: every record owns its own array). -/
theorem combineDataH_sim (h0 : Heap) (pending : List HItem) :
    ∀ (data : List (String × Nat)) (h : Heap)
      (dataV : List (String × List JSVal)),
      SimInv h0 data h dataV →
      (∀ it ∈ pending, it.dp < h0.length) →
      (pending.map fun j => j.dp).Nodup →
      (∀ it ∈ pending, ∀ k, findVal data k ≠ some it.dp) →
      SimInv h0 (pending.foldl combineStepH (data, h)).1
        (pending.foldl combineStepH (data, h)).2
        ((pending.map (derefItem h0)).foldl combineStep dataV) := by
  induction pending with
  | nil =>
    intro data h dataV hInv _ _ _
    exact hInv
  | cons it rest ih =>
    intro data h dataV hInv hlt hnd hfree
    obtain ⟨hlen, hsome, hnone, hun, hinj⟩ := hInv
    have hdp : it.dp < h0.length := hlt it (List.mem_cons_self it rest)
    have hdpfree : ∀ k, findVal data k ≠ some it.dp :=
      hfree it (List.mem_cons_self it rest)
    have hndr : (rest.map fun j => j.dp).Nodup := by
      rw [List.map_cons, List.nodup_cons] at hnd
      exact hnd.2
    have hdpnotin : it.dp ∉ rest.map fun j => j.dp := by
      rw [List.map_cons, List.nodup_cons] at hnd
      exact hnd.1
    simp only [List.map_cons, List.foldl_cons]
    rcases hk : findVal data (keyOfH it) with _ | accA
    · have hstep : combineStepH (data, h) it = (data ++ [(keyOfH it, it.dp)], h) := by
        simp [combineStepH, hk]
      have hstepV : combineStep dataV (derefItem h0 it)
          = dataV ++ [(keyOfH it, heapArr h0 it.dp)] := by
        unfold combineStep
        rw [show keyOf (derefItem h0 it) = keyOfH it from rfl, hnone _ hk]
        rfl
      rw [hstep, hstepV]
      apply ih
      · refine ⟨hlen, ?_, ?_, ?_, ?_⟩
        · intro k a hka
          rcases findVal_append_single hka with hold | ⟨hnone', hq, hv⟩
          · obtain ⟨ha, hV⟩ := hsome k a hold
            exact ⟨ha, findVal_append_some _ hV⟩
          · subst hv
            refine ⟨hdp, ?_⟩
            rw [findVal_append_none _ (hnone _ hnone'), findVal_singleton,
              if_pos hq, hun it.dp hdp hdpfree]
        · intro k hka
          obtain ⟨hd0, hq⟩ := findVal_append_single_none hka
          rw [findVal_append_none _ (hnone _ hd0), findVal_singleton, if_neg hq]
        · intro b hb hfb
          apply hun b hb
          intro k hc
          exact hfb k (findVal_append_some _ hc)
        · intro k1 k2 a h1 h2
          rcases findVal_append_single h1 with h1o | ⟨h1n, h1q, h1v⟩ <;>
            rcases findVal_append_single h2 with h2o | ⟨h2n, h2q, h2v⟩
          · exact hinj k1 k2 a h1o h2o
          · rw [← h2v] at h1o
            exact absurd h1o (hdpfree k1)
          · rw [← h1v] at h2o
            exact absurd h2o (hdpfree k2)
          · rw [← h1q, ← h2q]
      · intro j hj
        exact hlt j (List.mem_cons_of_mem _ hj)
      · exact hndr
      · intro j hj k hc
        rcases findVal_append_single hc with hold | ⟨_, _, hv⟩
        · exact hfree j (List.mem_cons_of_mem _ hj) k hold
        · apply hdpnotin
          rw [hv]
          exact List.mem_map_of_mem (fun x => x.dp) hj
    · obtain ⟨haccA, hVacc⟩ := hsome _ _ hk
      have hAne : accA ≠ it.dp := fun he => hdpfree (keyOfH it) (he ▸ hk)
      have hacclt : accA < h.length := by
        rw [hlen]
        exact haccA
      have hcontrib : heapArr h it.dp = heapArr h0 it.dp := hun it.dp hdp hdpfree
      have hstep : combineStepH (data, h) it = (data, addLoopH h accA it.dp) := by
        simp [combineStepH, hk]
      have hstepV : combineStep dataV (derefItem h0 it)
          = updateVal dataV (keyOfH it)
              (stepAdd (heapArr h accA) (heapArr h0 it.dp)) := by
        unfold combineStep
        rw [show keyOf (derefItem h0 it) = keyOfH it from rfl, hVacc]
        rfl
      have hheap : addLoopH h accA it.dp
          = List.set h accA (stepAdd (heapArr h accA) (heapArr h0 it.dp)) := by
        rw [addLoopH_eq h accA it.dp hAne hacclt, hcontrib]
      rw [hstep, hstepV, hheap]
      apply ih
      · refine ⟨?_, ?_, ?_, ?_, hinj⟩
        · rw [List.length_set]
          exact hlen
        · intro k a hka
          by_cases hkk : k = keyOfH it
          · subst hkk
            rcases Option.some.inj (hk.symm.trans hka) with rfl
            refine ⟨haccA, ?_⟩
            rw [findVal_updateVal_self _ hVacc, heapArr_set_self _ _ _ hacclt]
          · have hane : a ≠ accA := fun he => hkk (hinj k (keyOfH it) a hka (he ▸ hk))
            obtain ⟨halt, hVa⟩ := hsome k a hka
            refine ⟨halt, ?_⟩
            rw [findVal_updateVal_other _ _ _ _ hkk,
              heapArr_set_other _ _ _ _ (fun he => hane he.symm), hVa]
        · intro k hka
          have hkk : k ≠ keyOfH it := by
            intro he
            rw [he, hk] at hka
            exact Option.noConfusion hka
          rw [findVal_updateVal_other _ _ _ _ hkk]
          exact hnone _ hka
        · intro b hb hfb
          have hbne : accA ≠ b := fun he => hfb (keyOfH it) (he ▸ hk)
          rw [heapArr_set_other _ _ _ _ hbne]
          exact hun b hb hfb
      · intro j hj
        exact hlt j (List.mem_cons_of_mem _ hj)
      · exact hndr
      · intro j hj k hc
        exact hfree j (List.mem_cons_of_mem _ hj) k hc

/-- Null positions of the seed survive any number of add passes. -/
theorem aggFold_preserves_null (rs : List Item) :
    ∀ (dp0 : List JSVal) (i : Nat), readIdx dp0 i = JSVal.null →
      readIdx (aggFold dp0 rs) i = JSVal.null := by
  induction rs with
  | nil =>
    intro dp0 i h
    rw [aggFold_nil]
    exact h
  | cons r rest ih =>
    intro dp0 i h
    rw [aggFold_cons]
    exact ih _ i (stepAdd_preserves_null _ _ i h)

/-! ## Claim theorems -/

/-- C1, counterexample. The claim says the aggregated value is null at any
index where ANY base series held null. The code only skips the add when
the ACCUMULATOR holds null; a later contributor's null is fed to `+=`,
where JS coerces it to 0. Here the second series holds null at index 0,
yet the output is the number 1, not null. -/
theorem combined_null_not_sticky_for_later_contributors :
    findVal (combineData
        [⟨"P", "2024-01-01", [JSVal.num 1]⟩,
         ⟨"P", "2024-01-01", [JSVal.null]⟩]) "P_2024-01-01"
      = some [JSVal.num 1] ∧
    readIdx [JSVal.null] 0 = JSVal.null ∧
    JSVal.num 1 ≠ JSVal.null := by
  decide

/-- C1, amended. Each output entry is keyed `name ++ "_" ++ date`; under
the portal's guarantee of equal-length number-or-null series per key, the
value at index `i` is null exactly when the FIRST-seen record for the key
held null at `i`; at every other index it is the number obtained by
summing all contributors, a later contributor's null being coerced to 0
(not kept null as the claim stated). -/
theorem combined_entry_elementwise_sum_with_first_null_mask
    (items : List Item) (k : String) (r0 : Item) (rs : List Item)
    (hfilter : items.filter (fun j => keyOf j = k) = r0 :: rs)
    (hwf : ∀ r ∈ r0 :: rs, ∀ v ∈ r.dataPoints, isNumOrNull v)
    (hlen : ∀ r ∈ rs, r.dataPoints.length = r0.dataPoints.length) :
    findVal (combineData items) k = some (aggFold r0.dataPoints rs) ∧
    (aggFold r0.dataPoints rs).length = r0.dataPoints.length ∧
    ∀ i, i < r0.dataPoints.length →
      readIdx (aggFold r0.dataPoints rs) i =
        (if readIdx r0.dataPoints i = JSVal.null then JSVal.null
         else JSVal.num
           (((r0 :: rs).map fun r => coerceZ (readIdx r.dataPoints i)).sum)) := by
  have hout := findVal_combineData items k
  rw [hfilter] at hout
  have hnn0 : ∀ i, i < r0.dataPoints.length → isNumOrNull (readIdx r0.dataPoints i) :=
    forall_readIdx_of_forall_mem (hwf r0 (List.mem_cons_self r0 rs))
  have hnn : ∀ r ∈ rs, ∀ i, i < r0.dataPoints.length →
      isNumOrNull (readIdx r.dataPoints i) := by
    intro r hr i hi
    exact forall_readIdx_of_forall_mem (hwf r (List.mem_cons_of_mem _ hr)) i
      (by rw [hlen r hr]; exact hi)
  obtain ⟨hl, hv⟩ := aggFold_spec rs r0.dataPoints rfl hlen hnn0 hnn
  refine ⟨hout, hl, ?_⟩
  intro i hi
  rw [hv i hi]
  by_cases h0 : readIdx r0.dataPoints i = JSVal.null
  · simp [h0]
  · rw [if_neg h0, if_neg h0, List.map_cons, List.sum_cons]

/-- C1, witness: `[1, null]` then `[2, 5]` under one key gives `[3, null]`
(index 0 sums, index 1 keeps the first record's null). -/
theorem combined_entry_elementwise_sum_witness :
    readIdx (aggFold [JSVal.num 1, JSVal.null]
      [⟨"P", "d", [JSVal.num 2, JSVal.num 5]⟩]) 0 = JSVal.num 3 ∧
    readIdx (aggFold [JSVal.num 1, JSVal.null]
      [⟨"P", "d", [JSVal.num 2, JSVal.num 5]⟩]) 1 = JSVal.null := by
  obtain ⟨-, -, hval⟩ := combined_entry_elementwise_sum_with_first_null_mask
    [⟨"P", "d", [JSVal.num 1, JSVal.null]⟩, ⟨"P", "d", [JSVal.num 2, JSVal.num 5]⟩]
    "P_d" ⟨"P", "d", [JSVal.num 1, JSVal.null]⟩
    [⟨"P", "d", [JSVal.num 2, JSVal.num 5]⟩]
    (by decide) (by decide) (by decide)
  exact ⟨(hval 0 (by decide)).trans (by decide),
    (hval 1 (by decide)).trans (by decide)⟩

/-- C2. The aggregator stores the first record seen under a key as the
running total and element-wise adds each later record into it, EXCEPT that
a position where the accumulator holds null is skipped: such a null is
sticky for the whole run whatever later contributors hold there (first
conjunct, fully general); and the spec's concrete example
`[1,2,null] + [3,4,5] = [4,6,null]` holds (second conjunct). -/
theorem aggregation_sticky_null_and_example :
    (∀ (items : List Item) (k : String) (r0 : Item) (rs : List Item) (i : Nat),
        items.filter (fun j => keyOf j = k) = r0 :: rs →
        readIdx r0.dataPoints i = JSVal.null →
        findVal (combineData items) k = some (aggFold r0.dataPoints rs) ∧
        readIdx (aggFold r0.dataPoints rs) i = JSVal.null) ∧
    findVal (combineData
        [⟨"P", "2024-01-01", [JSVal.num 1, JSVal.num 2, JSVal.null]⟩,
         ⟨"P", "2024-01-01", [JSVal.num 3, JSVal.num 4, JSVal.num 5]⟩])
        "P_2024-01-01"
      = some [JSVal.num 4, JSVal.num 6, JSVal.null] := by
  constructor
  · intro items k r0 rs i hf h0
    have hout := findVal_combineData items k
    rw [hf] at hout
    exact ⟨hout, aggFold_preserves_null rs r0.dataPoints i h0⟩
  · decide

/-- C2, witness: under key `"Q_d"`, a first-record null at index 0 stays
null although the later contributor holds the number 7 there. -/
theorem aggregation_sticky_null_witness :
    findVal (combineData [⟨"Q", "d", [JSVal.null]⟩, ⟨"Q", "d", [JSVal.num 7]⟩])
        "Q_d"
      = some (aggFold [JSVal.null] [⟨"Q", "d", [JSVal.num 7]⟩]) ∧
    readIdx (aggFold [JSVal.null] [⟨"Q", "d", [JSVal.num 7]⟩]) 0 = JSVal.null :=
  aggregation_sticky_null_and_example.1
    [⟨"Q", "d", [JSVal.null]⟩, ⟨"Q", "d", [JSVal.num 7]⟩] "Q_d"
    ⟨"Q", "d", [JSVal.null]⟩ [⟨"Q", "d", [JSVal.num 7]⟩] 0
    (by decide) (by decide)

/-- C3, counterexample. The key is the plain concatenation
`name + "_" + date`, so two records differing in BOTH name and date can
still collide: `("a_b", "c")` and `("a", "b_c")` both map to key
`"a_b_c"` and are merged into one entry holding 1 + 2 = 3. -/
theorem distinct_name_date_can_collide_on_key :
    ("a_b" : String) ≠ "a" ∧ ("c" : String) ≠ "b_c" ∧
    combineData [⟨"a_b", "c", [JSVal.num 1]⟩, ⟨"a", "b_c", [JSVal.num 2]⟩]
      = [("a_b_c", [JSVal.num 3])] := by
  decide

/-- C3, amended. Records with distinct COMPOSITE keys (`name + "_" + date`)
produce independent entries: the output entry under any key is computed
solely from the records whose composite key equals it, so records whose
composite keys differ never contribute to the same output sequence.
(Merely differing in name or date is not enough when the concatenations
coincide, as the counterexample shows.) -/
theorem entry_depends_only_on_records_with_same_key
    (items : List Item) (k : String) :
    findVal (combineData items) k
      = findVal (combineData (items.filter fun j => keyOf j = k)) k := by
  have hff : (items.filter fun j => keyOf j = k).filter (fun j => keyOf j = k)
      = items.filter fun j => keyOf j = k := by
    apply List.filter_eq_self.mpr
    intro a ha
    exact (List.mem_filter.mp ha).2
  rw [findVal_combineData, findVal_combineData, hff]

/-- C4. A key under which exactly one record occurs maps to that record's
`dataPoints` sequence unchanged: the first record seen for a key seeds the
accumulator and no add pass runs. -/
theorem single_record_key_returns_dataPoints_unchanged
    (items : List Item) (k : String) (r : Item)
    (h : items.filter (fun j => keyOf j = k) = [r]) :
    findVal (combineData items) k = some r.dataPoints := by
  have hout := findVal_combineData items k
  rw [h] at hout
  exact hout

/-- C4, witness: a lone record under its key comes back unchanged. -/
theorem single_record_key_witness :
    findVal (combineData [⟨"Inv1", "2024-01-01", [JSVal.num 1, JSVal.null]⟩])
        "Inv1_2024-01-01"
      = some [JSVal.num 1, JSVal.null] :=
  single_record_key_returns_dataPoints_unchanged
    [⟨"Inv1", "2024-01-01", [JSVal.num 1, JSVal.null]⟩] "Inv1_2024-01-01"
    ⟨"Inv1", "2024-01-01", [JSVal.num 1, JSVal.null]⟩ (by decide)

/-- C5. On any component list the components call returns, `get_inverters`
returns exactly the records whose `type` equals `"Inverter"`: the result
is a sublist of the input (original relative order preserved), every
returned record has type `"Inverter"`, every input record of that type is
returned, and each record keeps its multiplicity. -/
theorem get_inverters_filters_type_inverter
    (comps res : List Component)
    (h : get_inverters (Except.ok comps) = Except.ok res) :
    res.Sublist comps ∧
    (∀ c ∈ res, c.type = "Inverter") ∧
    (∀ c ∈ comps, c.type = "Inverter" → c ∈ res) ∧
    (∀ c : Component,
      res.count c = if c.type = "Inverter" then comps.count c else 0) := by
  have hres : res = comps.filter (fun c => c.type = "Inverter") :=
    (Except.ok.inj h).symm
  subst hres
  refine ⟨List.filter_sublist _, ?_, ?_, ?_⟩
  · intro c hc
    simpa using (List.mem_filter.mp hc).2
  · intro c hc ht
    exact List.mem_filter.mpr ⟨hc, by simpa using ht⟩
  · intro c
    by_cases hc : c.type = "Inverter"
    · rw [if_pos hc]
      exact List.count_filter (by simpa using hc)
    · rw [if_neg hc]
      refine List.count_eq_zero.mpr fun hmem => ?_
      exact hc (by simpa using (List.mem_filter.mp hmem).2)

/-- C5, witness: from a mixed list, only the inverter survives, in place. -/
theorem get_inverters_filters_witness :
    ([⟨"1", "A", "Inverter", "x"⟩] : List Component).Sublist
      [⟨"1", "A", "Inverter", "x"⟩, ⟨"2", "B", "Meter", "y"⟩] ∧
    (⟨"1", "A", "Inverter", "x"⟩ : Component).type = "Inverter" := by
  obtain ⟨hsub, hall, -, -⟩ := get_inverters_filters_type_inverter
    [⟨"1", "A", "Inverter", "x"⟩, ⟨"2", "B", "Meter", "y"⟩]
    [⟨"1", "A", "Inverter", "x"⟩] rfl
  exact ⟨hsub, hall _ (by decide)⟩

/-- C6. `get_combined_inverter_data` is exactly: one `crossEpochChannels`
call with the caller's plant id, component ids and date bounds and the
FIXED channel list `["ProdPdc", "ProdEtotal"]`, whose result is fed to the
aggregation pass — so a failure of that underlying call is returned as-is,
with no aggregation attempted and no partial result. -/
theorem get_combined_inverter_data_delegates_and_propagates_failure
    (fetch : CrossEpochFetch) (plantId : String) (inverters : List String)
    (dateFrom dateTo : String) :
    get_combined_inverter_data fetch plantId inverters dateFrom dateTo
      = Except.map combineData
          (fetch plantId inverters ["ProdPdc", "ProdEtotal"] dateFrom dateTo) ∧
    ∀ e : ApiError,
      fetch plantId inverters ["ProdPdc", "ProdEtotal"] dateFrom dateTo
          = Except.error e →
        get_combined_inverter_data fetch plantId inverters dateFrom dateTo
          = Except.error e := by
  constructor
  · rcases hf : fetch plantId inverters ["ProdPdc", "ProdEtotal"] dateFrom dateTo
        with e | res <;>
      simp [get_combined_inverter_data, hf, Except.map]
  · intro e he
    simp [get_combined_inverter_data, he]

/-- C6, witness: a transport that rejects makes the whole call reject with
the same error and no aggregated object. -/
theorem get_combined_inverter_data_error_witness :
    get_combined_inverter_data
        (fun _ _ _ _ _ => Except.error (ApiError.httpStatus 500))
        "plant1" ["inv1"] "2024-01-01" "2024-01-02"
      = Except.error (ApiError.httpStatus 500) :=
  (get_combined_inverter_data_delegates_and_propagates_failure
      (fun _ _ _ _ _ => Except.error (ApiError.httpStatus 500))
      "plant1" ["inv1"] "2024-01-01" "2024-01-02").2
    (ApiError.httpStatus 500) rfl

/-- C7, counterexample. The claim says `login` fails when the 2xx payload
lacks an `access_token` field. It does not: the code never checks the
field. With `access_token` absent, `login` still succeeds, stores the
JS `undefined` as the token and sets the Authorization default header to the
literal string `"Bearer undefined"`. -/
theorem login_succeeds_without_access_token_field :
    login (Except.ok { access_token := none }) initialState
      = Except.ok { access_token := none,
                    authorization := some "Bearer undefined" } := rfl

/-- C7, amended. `login` fails exactly when the token-exchange transport
fails (axios rejects on non-2xx), and then propagates that error; on ANY
2xx response it succeeds, stores the payload's `access_token` field as-is
(JS `undefined` when absent), and sets the Authorization default header —
used by every subsequent call — to `"Bearer "` followed by the stored
value's string form. -/
theorem login_failure_iff_transport_failure :
    (∀ (e : AuthError) (st : ClientState),
        login (Except.error e) st = Except.error e) ∧
    (∀ (r : TokenResponse) (st : ClientState),
        ∃ st', login (Except.ok r) st = Except.ok st' ∧
          st'.access_token = r.access_token ∧
          st'.authorization = some ("Bearer " ++ jsInterp r.access_token) ∧
          ("Authorization", "Bearer " ++ jsInterp r.access_token)
            ∈ readRequestHeaders st') := by
  refine ⟨fun e st => rfl, fun r st => ⟨_, rfl, rfl, rfl, ?_⟩⟩
  simp [readRequestHeaders, login]

/-- C8. After a successful `login` that stored token `tok`, the headers of
every subsequent read request contain exactly one `Authorization` entry,
whose value is `"Bearer " ++ tok`; on a fresh client (before any login)
the read-request headers contain no `Authorization` entry at all. -/
theorem authorization_header_exactly_once_after_login_absent_before :
    (∀ (r : TokenResponse) (st st' : ClientState) (tok : String),
        login (Except.ok r) st = Except.ok st' →
        r.access_token = some tok →
        st'.access_token = some tok ∧
        (readRequestHeaders st').filter (fun hd => hd.1 = "Authorization")
          = [("Authorization", "Bearer " ++ tok)]) ∧
    (readRequestHeaders initialState).filter (fun hd => hd.1 = "Authorization")
      = [] := by
  constructor
  · intro r st st' tok hlog htok
    have hst : st' =
        { st with
          access_token := r.access_token,
          authorization := some ("Bearer " ++ jsInterp r.access_token) } :=
      (Except.ok.inj hlog).symm
    subst hst
    have hbase : baseHeaders.filter (fun hd => hd.1 = "Authorization") = [] := by
      decide
    refine ⟨by simp [htok], ?_⟩
    simp only [readRequestHeaders, List.filter_append, hbase, List.nil_append,
      htok, jsInterp]
    simp
  · decide

/-- C8, witness: a stored token `"tok123"` yields the single header
`Authorization: Bearer tok123`. -/
theorem authorization_header_witness :
    ({ access_token := some "tok123", authorization := some "Bearer tok123" }
        : ClientState).access_token = some "tok123" ∧
    (readRequestHeaders
        { access_token := some "tok123",
          authorization := some "Bearer tok123" }).filter
        (fun hd => hd.1 = "Authorization")
      = [("Authorization", "Bearer tok123")] :=
  authorization_header_exactly_once_after_login_absent_before.1
    { access_token := some "tok123" } initialState
    { access_token := some "tok123", authorization := some "Bearer tok123" }
    "tok123" rfl rfl

/-- C9. The aggregation mutates its input. In the heap model (arrays are
addresses into a heap, as JS handles them): provided every record's
`dataPoints` address is valid and the records' arrays are pairwise
distinct objects (the shape of a parsed JSON response), the output entry
under each key is the ADDRESS of the first-seen record's array — aliased,
not copied — and after the loop, the array at that address (i.e. the
first-seen input record's own `dataPoints`) holds exactly the aggregated
value that the value-level `combineData` computes, not its original
contents. -/
theorem aggregation_aliases_and_mutates_first_record_array
    (h0 : Heap) (items : List HItem)
    (hvalid : ∀ it ∈ items, it.dp < h0.length)
    (hdistinct : (items.map fun j => j.dp).Nodup)
    (k : String) (it0 : HItem)
    (hfirst : items.find? (fun j => keyOfH j = k) = some it0) :
    findVal (combineDataH items h0).1 k = some it0.dp ∧
    findVal (combineData (items.map (derefItem h0))) k
      = some (heapArr (combineDataH items h0).2 it0.dp) := by
  have hdata : findVal (combineDataH items h0).1 k = some it0.dp := by
    unfold combineDataH
    rw [findVal_combineStepH_foldl items [] h0 k, findVal_nil, hfirst]
    rfl
  obtain ⟨-, hsome, -, -, -⟩ :=
    combineDataH_sim h0 items [] h0 [] (simInv_init h0) hvalid hdistinct
      (fun it _ k' => by simp [findVal_nil])
  have hdata' : findVal (items.foldl combineStepH ([], h0)).1 k = some it0.dp :=
    hdata
  exact ⟨hdata, (hsome k it0.dp hdata').2⟩

/-- C9, witness: two records sharing key `"P_d"`, arrays at addresses 0
and 1; the output maps the key to address 0 (the first record's array) and
that array now holds the aggregate, matching the value-level result. -/
theorem aggregation_aliasing_witness :
    findVal (combineDataH [⟨"P", "d", 0⟩, ⟨"P", "d", 1⟩]
        [[JSVal.num 1, JSVal.num 2, JSVal.null],
         [JSVal.num 3, JSVal.num 4, JSVal.num 5]]).1 "P_d"
      = some 0 ∧
    findVal (combineData ([⟨"P", "d", 0⟩, ⟨"P", "d", 1⟩].map
        (derefItem [[JSVal.num 1, JSVal.num 2, JSVal.null],
          [JSVal.num 3, JSVal.num 4, JSVal.num 5]]))) "P_d"
      = some (heapArr (combineDataH [⟨"P", "d", 0⟩, ⟨"P", "d", 1⟩]
          [[JSVal.num 1, JSVal.num 2, JSVal.null],
           [JSVal.num 3, JSVal.num 4, JSVal.num 5]]).2 0) :=
  aggregation_aliases_and_mutates_first_record_array
    [[JSVal.num 1, JSVal.num 2, JSVal.null],
     [JSVal.num 3, JSVal.num 4, JSVal.num 5]]
    [⟨"P", "d", 0⟩, ⟨"P", "d", 1⟩]
    (by decide) (by decide) "P_d" ⟨"P", "d", 0⟩ (by decide)

/-- C10. First conjunct: when all records sharing a key have equal-length
number-or-null `dataPoints`, the output entry for that key has the length
of the key's first-seen record and every element is a number or null.
Second conjunct: without the equal-length precondition this fails — the
add loop iterates the CONTRIBUTOR's indices, so a longer later record
makes the loop write past the accumulator's end: `[1]` then `[2, 3]`
yields `[3, NaN]`, longer than the first record and containing NaN. -/
theorem output_shape_under_equal_length_precondition :
    (∀ (items : List Item) (k : String) (r0 : Item) (rs : List Item),
        items.filter (fun j => keyOf j = k) = r0 :: rs →
        (∀ r ∈ r0 :: rs, ∀ v ∈ r.dataPoints, isNumOrNull v) →
        (∀ r ∈ rs, r.dataPoints.length = r0.dataPoints.length) →
        findVal (combineData items) k = some (aggFold r0.dataPoints rs) ∧
        (aggFold r0.dataPoints rs).length = r0.dataPoints.length ∧
        ∀ v ∈ aggFold r0.dataPoints rs, isNumOrNull v) ∧
    (findVal (combineData [⟨"P", "d", [JSVal.num 1]⟩,
        ⟨"P", "d", [JSVal.num 2, JSVal.num 3]⟩]) "P_d"
      = some [JSVal.num 3, JSVal.nan] ∧
     ¬ isNumOrNull JSVal.nan) := by
  constructor
  · intro items k r0 rs hf hwf hlen
    have hout := findVal_combineData items k
    rw [hf] at hout
    have hnn0 : ∀ i, i < r0.dataPoints.length →
        isNumOrNull (readIdx r0.dataPoints i) :=
      forall_readIdx_of_forall_mem (hwf r0 (List.mem_cons_self r0 rs))
    have hnn : ∀ r ∈ rs, ∀ i, i < r0.dataPoints.length →
        isNumOrNull (readIdx r.dataPoints i) := by
      intro r hr i hi
      exact forall_readIdx_of_forall_mem (hwf r (List.mem_cons_of_mem _ hr)) i
        (by rw [hlen r hr]; exact hi)
    obtain ⟨hl, hv⟩ := aggFold_spec rs r0.dataPoints rfl hlen hnn0 hnn
    refine ⟨hout, hl, ?_⟩
    apply forall_mem_of_forall_readIdx
    intro i hi
    rw [hl] at hi
    rw [hv i hi]
    by_cases h0 : readIdx r0.dataPoints i = JSVal.null <;>
      simp [h0, isNumOrNull]
  · exact ⟨by decide, by decide⟩

/-- C10, witness: equal-length inputs `[2, null]` and `[3, 4]` give an
output of the first record's length. -/
theorem output_shape_witness :
    findVal (combineData [⟨"E", "d", [JSVal.num 2, JSVal.null]⟩,
        ⟨"E", "d", [JSVal.num 3, JSVal.num 4]⟩]) "E_d"
      = some (aggFold [JSVal.num 2, JSVal.null]
          [⟨"E", "d", [JSVal.num 3, JSVal.num 4]⟩]) ∧
    (aggFold [JSVal.num 2, JSVal.null]
        [⟨"E", "d", [JSVal.num 3, JSVal.num 4]⟩]).length = 2 := by
  obtain ⟨h1, h2, -⟩ := output_shape_under_equal_length_precondition.1
    [⟨"E", "d", [JSVal.num 2, JSVal.null]⟩, ⟨"E", "d", [JSVal.num 3, JSVal.num 4]⟩]
    "E_d" ⟨"E", "d", [JSVal.num 2, JSVal.null]⟩
    [⟨"E", "d", [JSVal.num 3, JSVal.num 4]⟩]
    (by decide) (by decide) (by decide)
  exact ⟨h1, h2⟩

end SolarLog

